import Mathlib

/-!
# ss-file-size-optimizer: the upload pipeline of `main.go`

A shallow embedding of the arithmetic and the request handling of `main.go`:

* `resizeDims` is the dimension computation of `resizeImage` (lines 243-256), with Go's
  `float64` arithmetic modelled as round-to-nearest-even over the rationals (`f64`) and the
  conversion `int(...)` as truncation toward zero (`truncToInt`);
* `atoi` is `strconv.Atoi`, `formatInt` is `fmt.Sprintf("%d", n)`;
* `encodeToString` and `decodeString` are `base64.StdEncoding`, `escapeString` is
  `html.EscapeString`, `marshal` is `json.Marshal` on a string map, `fprintf` is `fmt.Fprintf`
  with a format and no operand, `clean` is `filepath.Clean` with the slash as separator;
* `uploadHandler` is the handler of `/upload`, over an explicit server state and an environment
  that fixes the outcome of every operation outside the program (clock, file system, codecs,
  allocation, the external compressor). It returns the response written, or none when the
  handler panics.
-/

namespace Optimizer

/-! ## float64 arithmetic -/

/-- Round a rational to the nearest integer, ties to the even one. -/
def roundHalfEven (x : ℚ) : ℤ :=
  let f := ⌊x⌋
  let r := x - f
  if r < 1/2 then f
  else if 1/2 < r then f + 1
  else if f % 2 = 0 then f else f + 1

/-- The float64 nearest to the rational `q`: 53 significant bits, round to nearest, ties to even.
The exponent range is not modelled: the operands below are integers of Go's `int` type, their
products and their quotients, all far from overflow and underflow. -/
def f64 (q : ℚ) : ℚ :=
  if q = 0 then 0
  else
    let e : ℤ := Int.log 2 |q|
    let ulp : ℚ := (2 : ℚ) ^ (e - 52)
    (roundHalfEven (q / ulp) : ℚ) * ulp

/-- Go's conversion `int(x)` of a float64: the fraction is discarded (truncation toward zero). -/
def truncToInt (q : ℚ) : ℤ := if 0 ≤ q then ⌊q⌋ else ⌈q⌉

/-- The expression `int(float64(a) * float64(b) / float64(c))` of `resizeImage`: two conversions,
a rounded product, a conversion, a rounded quotient, and the truncation. -/
def scaleDim (a b c : ℤ) : ℤ := truncToInt (f64 (f64 (f64 a * f64 b) / f64 c))

/-! ## resizeImage: the new dimensions -/

/-- The dimensions `(width, height)` that `resizeImage` computes for the new canvas
(`main.go`, lines 243-256), from the bounds of the decoded image and the two maxima. -/
def resizeDims (originalWidth originalHeight maxWidth maxHeight : ℤ) : ℤ × ℤ :=
  let width := originalWidth
  let height := originalHeight
  let (width, height) :=
    if width > maxWidth then
      (maxWidth, scaleDim originalHeight maxWidth originalWidth)
    else (width, height)
  let (width, height) :=
    if height > maxHeight then
      (scaleDim originalWidth maxHeight originalHeight, maxHeight)
    else (width, height)
  (width, height)

/-- The single min-scale-factor computation the spec's design notes contrast with the code:
both dimensions multiplied by `s = min(1, maxWidth/ow, maxHeight/oh)`, computed exactly, and
floored. This definition follows the spec's words, not the source. -/
def minScaleDims (ow oh maxWidth maxHeight : ℤ) : ℤ × ℤ :=
  let s : ℚ := min 1 (min ((maxWidth : ℚ) / ow) ((maxHeight : ℚ) / oh))
  (⌊(ow : ℚ) * s⌋, ⌊(oh : ℚ) * s⌋)

/-! ## strconv.Atoi and the verb %d -/

/-- The two kinds of `strconv.NumError`: `ErrSyntax` (`invalid`) and `ErrRange`
(`outOfRange`). -/
inductive NumError where
  | invalid
  | outOfRange
  deriving DecidableEq

/-- The value of a decimal digit, `ch - 48`, or nothing when the character is not one of
`0` .. `9`. -/
def digitValue (c : Char) : Option ℕ :=
  if 48 ≤ c.toNat ∧ c.toNat ≤ 57 then some (c.toNat - 48) else none

/-- The digit loop of `strconv.ParseUint(s, 10, 64)`: left to right, a character that is not a
decimal digit is a syntax error with value 0, and the first step that leaves the uint64 range
stops the loop with the maximum value and a range error, whatever follows. -/
def parseUint : List Char → ℕ → ℕ × Option NumError
  | [], n => (n, none)
  | c :: cs, n =>
    match digitValue c with
    | none => (0, some NumError.invalid)
    | some d =>
      if n * 10 + d > 2 ^ 64 - 1 then (2 ^ 64 - 1, some NumError.outOfRange)
      else parseUint cs (n * 10 + d)

/-- The function `strconv.ParseInt(s, 10, 0)` with a 64-bit `int`: an optional sign, at least
one digit, and the clamping of a magnitude outside the int64 range. -/
def parseInt (s : List Char) : ℤ × Option NumError :=
  match s with
  | [] => (0, some NumError.invalid)
  | c :: cs =>
    let neg : Bool := c = Char.ofNat 45
    let digits := if c = Char.ofNat 43 ∨ c = Char.ofNat 45 then cs else c :: cs
    if digits = [] then (0, some NumError.invalid)
    else
      match parseUint digits 0 with
      | (_, some NumError.invalid) => (0, some NumError.invalid)
      | (un, _) =>
        if neg = false ∧ un ≥ 2 ^ 63 then (2 ^ 63 - 1, some NumError.outOfRange)
        else if neg = true ∧ un > 2 ^ 63 then (-(2 ^ 63), some NumError.outOfRange)
        else (if neg then -(un : ℤ) else (un : ℤ), none)

/-- The function `strconv.Atoi`: the value and the error. Its fast path for short strings
accepts the same strings with the same values as `ParseInt(s, 10, 0)`, which is the slow
path. -/
def atoi (s : String) : ℤ × Option NumError := parseInt s.toList

/-- The character of a decimal digit. -/
def decimalDigit (d : ℕ) : Char := Char.ofNat (48 + d)

/-- The decimal numeral of a natural number, most significant digit first. -/
def formatNat (n : ℕ) : List Char :=
  if n = 0 then [Char.ofNat 48] else (Nat.digits 10 n).reverse.map decimalDigit

/-- The string `fmt.Sprintf("%d", n)`. -/
def formatInt (n : ℤ) : String :=
  String.mk (if n < 0 then Char.ofNat 45 :: formatNat n.natAbs else formatNat n.natAbs)

/-! ## base64.StdEncoding and html.EscapeString -/

/-- A byte. -/
abbrev Byte := Fin 256

/-- The alphabet of `base64.StdEncoding`. -/
def encodeStd : List Char :=
  "ABCDEFGHIJKLMNOPQRSTUVWXYZabcdefghijklmnopqrstuvwxyz0123456789+/".toList

/-- The padding character of `base64.StdEncoding`, the equals sign. -/
def padChar : Char := Char.ofNat 61

/-- The table lookup `enc.encode[v & 0x3F]`. -/
def encodeSextet (v : ℕ) : Char := encodeStd.getD (v % 64) padChar

/-- The lookup in `enc.decodeMap`: the index of the character in the alphabet, if any. -/
def decodeSextet (c : Char) : Option ℕ :=
  let i := encodeStd.indexOf c
  if i < 64 then some i else none

/-- The method `Encode` of `base64.StdEncoding`: three bytes make four characters, and a
remainder of one or two bytes is padded to four characters. -/
def encodeBytes : List Byte → List Char
  | [] => []
  | [a] =>
    let val := a.val * 65536
    [encodeSextet (val / 262144), encodeSextet (val / 4096), padChar, padChar]
  | [a, b] =>
    let val := a.val * 65536 + b.val * 256
    [encodeSextet (val / 262144), encodeSextet (val / 4096), encodeSextet (val / 64), padChar]
  | a :: b :: c :: rest =>
    let val := a.val * 65536 + b.val * 256 + c.val
    encodeSextet (val / 262144) :: encodeSextet (val / 4096) :: encodeSextet (val / 64)
      :: encodeSextet val :: encodeBytes rest

/-- The function `base64.StdEncoding.EncodeToString`. -/
def encodeToString (src : List Byte) : String := String.mk (encodeBytes src)

/-- The low eight bits of a number, as a byte. -/
def toByte (n : ℕ) : Byte := ⟨n % 256, Nat.mod_lt n (by decide)⟩

/-- The decoding of `base64.StdEncoding` on quanta of four characters: padding is accepted in
the last quantum only, and the unused low bits of a padded quantum are not checked. -/
def decodeChars : List Char → Option (List Byte)
  | [] => some []
  | c1 :: c2 :: c3 :: c4 :: rest =>
    match decodeSextet c1, decodeSextet c2 with
    | some s1, some s2 =>
      if c4 = padChar then
        if rest ≠ [] then none
        else if c3 = padChar then
          let val := s1 * 262144 + s2 * 4096
          some [toByte (val / 65536)]
        else
          match decodeSextet c3 with
          | some s3 =>
            let val := s1 * 262144 + s2 * 4096 + s3 * 64
            some [toByte (val / 65536), toByte (val / 256)]
          | none => none
      else
        match decodeSextet c3, decodeSextet c4 with
        | some s3, some s4 =>
          let val := s1 * 262144 + s2 * 4096 + s3 * 64 + s4
          (decodeChars rest).map
            (fun tl => toByte (val / 65536) :: toByte (val / 256) :: toByte val :: tl)
        | _, _ => none
    | _, _ => none
  | _ => none

/-- The function `base64.StdEncoding.DecodeString`: carriage returns and line feeds are
skipped, the rest is decoded by quanta. -/
def decodeString (s : String) : Option (List Byte) :=
  decodeChars (s.toList.filter (fun c => c ≠ Char.ofNat 13 ∧ c ≠ Char.ofNat 10))

/-- The replacement of one character by `html.EscapeString`. -/
def escapeChar (c : Char) : List Char :=
  if c = Char.ofNat 38 then "&amp;".toList
  else if c = Char.ofNat 39 then "&#39;".toList
  else if c = Char.ofNat 60 then "&lt;".toList
  else if c = Char.ofNat 62 then "&gt;".toList
  else if c = Char.ofNat 34 then "&#34;".toList
  else [c]

/-- The function `html.EscapeString`. -/
def escapeString (s : String) : String := String.mk (s.toList.flatMap escapeChar)

/-! ## json.Marshal on a string map -/

/-- The lower-case hexadecimal digit of a number below 16. -/
def hexDigit (n : ℕ) : Char := "0123456789abcdef".toList.getD n (Char.ofNat 48)

/-- The escaping of one character inside a JSON string by `json.Marshal` (Go 1.22 and later,
HTML escaping on): the quote and the backslash get a backslash, the control characters their
short or `\u00XX` form, the characters `<`, `>`, `&` and the separators U+2028 and U+2029
their `\uXXXX` form; every other character is copied. -/
def jsonEscapeChar (c : Char) : List Char :=
  let n := c.toNat
  let bs := Char.ofNat 92
  if n = 34 ∨ n = 92 then [bs, c]
  else if n = 8 then [bs, Char.ofNat 98]
  else if n = 12 then [bs, Char.ofNat 102]
  else if n = 10 then [bs, Char.ofNat 110]
  else if n = 13 then [bs, Char.ofNat 114]
  else if n = 9 then [bs, Char.ofNat 116]
  else if n < 32 ∨ n = 60 ∨ n = 62 ∨ n = 38 then
    [bs, Char.ofNat 117, Char.ofNat 48, Char.ofNat 48, hexDigit (n / 16), hexDigit (n % 16)]
  else if n = 8232 then bs :: "u2028".toList
  else if n = 8233 then bs :: "u2029".toList
  else [c]

/-- A string as a JSON string: quoted and escaped. -/
def jsonString (s : String) : List Char :=
  Char.ofNat 34 :: s.toList.flatMap jsonEscapeChar ++ [Char.ofNat 34]

/-- The text `json.Marshal` gives for a string map whose entries are listed by sorted key: an
object of quoted keys and quoted values, without spaces. -/
def marshal (data : List (String × String)) : String :=
  String.mk (Char.ofNat 123 ::
    List.intercalate [Char.ofNat 44]
      (data.map (fun kv => jsonString kv.1 ++ Char.ofNat 58 :: jsonString kv.2))
    ++ [Char.ofNat 125])

/-! ## fmt.Fprintf with a format and no operand -/

/-- The flag characters of a verb: `#`, `0`, `+`, `-` and the space. -/
def isFlag (c : Char) : Bool :=
  c = Char.ofNat 35 ∨ c = Char.ofNat 48 ∨ c = Char.ofNat 43 ∨ c = Char.ofNat 45 ∨
    c = Char.ofNat 32

/-- The function `parsenum` of package fmt on the characters from the current index: whether
a number was read and how many digits; nothing when the number read so far exceeds 10^6 and
another digit follows (the caller then jumps to the end of its window). -/
def parsenum : List Char → ℕ → Bool → ℕ → Option (Bool × ℕ)
  | [], _, isnum, k => some (isnum, k)
  | c :: cs, num, isnum, k =>
    match digitValue c with
    | none => some (isnum, k)
    | some d => if num > 1000000 then none else parsenum cs (num * 10 + d) true (k + 1)

/-- The function `parseArgNumber` of package fmt on a text that starts with an opening
bracket: the number of characters to skip and whether a well-formed index `[n]` was read. -/
def parseArgNumber (s : List Char) : ℕ × Bool :=
  if s.length < 3 then (1, false)
  else
    let tl := s.drop 1
    let p := tl.indexOf (Char.ofNat 93)
    if p < tl.length then
      match parsenum (tl.take p) 0 false 0 with
      | some (true, k) => (p + 2, decide (k = p))
      | _ => (p + 2, false)
    else (1, false)

/-- The method `argNumber` of package fmt when there is no operand: the number of characters
to skip, whether an index was found, and whether a bracket was seen (no index is in range, so
a bracket always clears `goodArgNum`). -/
def argNumber (s : List Char) : ℕ × Bool × Bool :=
  match s with
  | c :: _ =>
    if c = Char.ofNat 91 then ((parseArgNumber s).1, (parseArgNumber s).2, true)
    else (0, false, false)
  | [] => (0, false, false)

/-- The constant `badWidthString` of package fmt. -/
def badWidthString : List Char := "%!(BADWIDTH)".toList

/-- The constant `badPrecString` of package fmt. -/
def badPrecString : List Char := "%!(BADPREC)".toList

/-- The constant `noVerbString` of package fmt. -/
def noVerbString : List Char := "%!(NOVERB)".toList

/-- The constant `percentBangString` of package fmt. -/
def percentBangString : List Char := "%!".toList

/-- The constant `badIndexString` of package fmt. -/
def badIndexString : List Char := "(BADINDEX)".toList

/-- The constant `missingString` of package fmt. -/
def missingString : List Char := "(MISSING)".toList

/-- The width of a verb in `doPrintf` without operands: what is written, the text left, and the
new values of `afterIndex` and `goodArgNum`. A star has no operand to read. -/
def parseWidth (s : List Char) (afterIndex good : Bool) :
    List Char × List Char × Bool × Bool :=
  match s with
  | c :: rest =>
    if c = Char.ofNat 42 then (badWidthString, rest, false, good)
    else
      match parsenum s 0 false 0 with
      | none => ([], [], afterIndex, good)
      | some (isnum, k) => ([], s.drop k, afterIndex, good && !(afterIndex && isnum))
  | [] => ([], [], afterIndex, good)

/-- The precision of a verb in `doPrintf` without operands: what is written, the text left,
and the new values of `afterIndex` and `goodArgNum`. -/
def parsePrecision (s : List Char) (afterIndex good : Bool) :
    List Char × List Char × Bool × Bool :=
  match s with
  | c :: rest =>
    if c = Char.ofNat 46 then
      let good := good && !afterIndex
      let a := argNumber rest
      let rest := rest.drop a.1
      let good := good && !a.2.2
      match rest with
      | d :: rest2 =>
        if d = Char.ofNat 42 then (badPrecString, rest2, false, good)
        else
          match parsenum rest 0 false 0 with
          | none => ([], [], a.2.1, good)
          | some (_, k) => ([], rest.drop k, a.2.1, good)
      | [] => ([], [], a.2.1, good)
    else ([], s, afterIndex, good)
  | [] => ([], [], afterIndex, good)

/-- One verb of `doPrintf` without operands, on the text after the percent sign: what is
written and how many characters are consumed. Flags, index, width, precision and index are
parsed; then a percent sign is written as itself, a verb after a bad index gives
`%!v(BADINDEX)`, any other verb gives `%!v(MISSING)`, and the end of the format gives
`%!(NOVERB)`. -/
def parseVerb (s : List Char) : List Char × ℕ :=
  let s1 := s.dropWhile isFlag
  let a1 := argNumber s1
  let w := parseWidth (s1.drop a1.1) a1.2.1 (!a1.2.2)
  let p := parsePrecision w.2.1 w.2.2.1 w.2.2.2
  let a3 := if p.2.2.1 then (0, false, false) else argNumber p.2.1
  let rest := p.2.1.drop a3.1
  let good := p.2.2.2 && !a3.2.2
  let written := w.1 ++ p.1
  match rest with
  | [] => (written ++ noVerbString, s.length)
  | verb :: rest2 =>
    if verb = Char.ofNat 37 then (written ++ [verb], s.length - rest2.length)
    else if good = false then
      (written ++ percentBangString ++ verb :: badIndexString, s.length - rest2.length)
    else (written ++ percentBangString ++ verb :: missingString, s.length - rest2.length)

/-- The loop of `doPrintf` without operands: the text up to a percent sign is copied, a verb is
replaced by what `parseVerb` writes, and the characters it consumed are skipped. -/
def doPrintf : ℕ → List Char → List Char
  | _, [] => []
  | skip + 1, _ :: cs => doPrintf skip cs
  | 0, c :: cs =>
    if c = Char.ofNat 37 then (parseVerb cs).1 ++ doPrintf (parseVerb cs).2 cs
    else c :: doPrintf 0 cs

/-- The text written by `fmt.Fprintf(w, format)`. -/
def fprintf (format : String) : String := String.mk (doPrintf 0 format.toList)

/-! ## filepath.Join -/

/-- The elements of a cleaned path: empty elements and `.` are dropped, `..` removes the
element before it, stays at the start of a relative path and is dropped at the root. -/
def cleanElems : List (List Char) → List (List Char) → Bool → List (List Char)
  | [], stack, _ => stack.reverse
  | e :: es, stack, rooted =>
    if e = [] ∨ e = [Char.ofNat 46] then cleanElems es stack rooted
    else if e = [Char.ofNat 46, Char.ofNat 46] then
      match stack with
      | top :: below =>
        if top = [Char.ofNat 46, Char.ofNat 46] then cleanElems es (e :: stack) rooted
        else cleanElems es below rooted
      | [] => if rooted then cleanElems es [] rooted else cleanElems es [e] rooted
    else cleanElems es (e :: stack) rooted

/-- The function `filepath.Clean` with the slash as separator. -/
def clean (path : String) : String :=
  let rooted : Bool := path.toList.head? = some (Char.ofNat 47)
  let joined :=
    List.intercalate [Char.ofNat 47]
      (cleanElems (path.toList.splitOn (Char.ofNat 47)) [] rooted)
  String.mk
    (if rooted then Char.ofNat 47 :: joined
     else if joined = [] then [Char.ofNat 46] else joined)

/-! ## The upload handler -/

/-- The files on disk: paths and contents. -/
abbrev Disk := List (String × List Byte)

/-- Create or truncate the file at `path` and write `content` to it. -/
def writeFile (disk : Disk) (path : String) (content : List Byte) : Disk :=
  (path, content) :: disk.filter (fun f => f.1 ≠ path)

/-- The result of `image.Decode`: the format name and the bounds of the image. -/
structure DecodedImage where
  format : String
  dx : ℤ
  dy : ℤ
  pixels : List Byte

/-- The outcome of every operation outside the program during one request. -/
structure Env where
  /-- The value of `time.Now().UnixNano()`. -/
  unixNano : ℤ
  /-- Whether `os.MkdirAll("uploads", ...)` succeeds. -/
  mkdirAllOk : Bool
  /-- Whether `os.Create(path)` succeeds. -/
  createOk : String → Bool
  /-- The number of bytes `io.Copy` has written when it fails, nothing when it succeeds. -/
  copyFault : Option ℕ
  /-- The function `image.Decode` on the content of a file. -/
  decode : List Byte → Option DecodedImage
  /-- Whether the runtime can allocate a pixel buffer of this many bytes. -/
  allocOk : ℕ → Bool
  /-- The Catmull-Rom scaling into a canvas of the given width and height, encoded in the
  format of the image: the bytes written, and whether the encoder succeeded. -/
  scaleAndEncode : DecodedImage → ℤ → ℤ → List Byte × Bool
  /-- The external compressor at a quality setting; nothing when it exits with an error. -/
  compress : String → List Byte → Option (List Byte)
  /-- The index of the `Read` call on the processed file that fails, if one does. -/
  readFault : Option ℕ

/-- The state of the process: the shared setting `cmdArgs["imageQuality"]` and the disk. -/
structure Server where
  imageQuality : String
  disk : Disk

/-- A request: its method, `r.FormValue` (the empty string for a missing field) and
`r.FormFile("image")` (the value of `header.Filename` and the content, nothing on error). -/
structure Request where
  method : String
  formValue : String → String
  formFile : Option (String × List Byte)

/-- A response: status, headers and the text of the body. -/
structure Response where
  status : ℕ
  headers : List (String × String)
  body : String

/-- The three CORS headers set on every response of `/upload`. -/
def corsHeaders : List (String × String) :=
  [("Access-Control-Allow-Origin", "*"), ("Access-Control-Allow-Methods", "POST, OPTIONS"),
    ("Access-Control-Allow-Headers", "Content-Type")]

/-- The function `http.Error`: the status code, the plain-text headers and the message
followed by a line feed. -/
def httpError (msg : String) (code : ℕ) : Response :=
  ⟨code,
    ("Content-Type", "text/plain; charset=utf-8") :: ("X-Content-Type-Options", "nosniff")
      :: corsHeaders,
    msg ++ "\n"⟩

/-- The message of the quality check. -/
def invalidQuality : String := "Invalid quality value. It should be between 0 and 100"

/-- How a call ends: it returns nil, it returns an error, or it panics. -/
inductive Outcome where
  | done
  | failed
  | panicked
  deriving DecidableEq

/-- Whether `image.NewRGBA(image.Rect(0, 0, width, height))` panics on the size of the
rectangle: `image.Rect` orders the corners, so the sides are the absolute values, and the
buffer length 4 * Dx * Dy is computed with overflow checks on 64-bit integers. -/
def newRGBAPanics (width height : ℤ) : Bool :=
  decide (4 * width.natAbs ≥ 2 ^ 64 ∨ 4 * width.natAbs * height.natAbs ≥ 2 ^ 63)

/-- The function `resizeImage`: open and decode the input, compute the new dimensions,
allocate the canvas, scale, create the output and encode in the format of the input. -/
def resizeImage (env : Env) (disk : Disk) (inputPath outputPath : String)
    (maxWidth maxHeight : ℤ) : Disk × Outcome :=
  match disk.lookup inputPath with
  | none => (disk, Outcome.failed)
  | some content =>
    match env.decode content with
    | none => (disk, Outcome.failed)
    | some img =>
      let dims := resizeDims img.dx img.dy maxWidth maxHeight
      if newRGBAPanics dims.1 dims.2 = true ∨
          env.allocOk (4 * dims.1.natAbs * dims.2.natAbs) = false then
        (disk, Outcome.panicked)
      else if env.createOk outputPath = false then (disk, Outcome.failed)
      else
        let disk := writeFile disk outputPath []
        if img.format = "jpeg" ∨ img.format = "png" then
          let encoded := env.scaleAndEncode img dims.1 dims.2
          (writeFile disk outputPath encoded.1,
            if encoded.2 = true then Outcome.done else Outcome.failed)
        else (disk, Outcome.failed)

/-- The function `processFile`: the external compressor, run at the shared quality setting, on
the staged file, writing the optimized file next to it. -/
def processFile (env : Env) (imageQuality : String) (disk : Disk) (filePath : String) :
    Disk × Bool :=
  match disk.lookup filePath with
  | none => (disk, false)
  | some content =>
    match env.compress imageQuality content with
    | none => (disk, false)
    | some out => (writeFile disk (filePath ++ "-optimized.png") out, true)

/-- The read loop of the handler (lines 160-174): chunks of at most 512 bytes are appended to
`buf` until a read returns no byte; a read that fails ends the request. -/
def readLoop (fault : Option ℕ) (i : ℕ) (rest buf : List Byte) : Option (List Byte) :=
  if fault = some i then none
  else
    match rest with
    | [] => some buf
    | b :: bs => readLoop fault (i + 1) ((b :: bs).drop 512) (buf ++ (b :: bs).take 512)
termination_by rest.length
decreasing_by
  simp only [List.length_drop, List.length_cons]
  omega

/-- The string map of a successful response (lines 181-185), listed by sorted key. -/
def responseData (filePath : String) (buf : List Byte) : List (String × String) :=
  [("base64", encodeToString buf), ("file_path", escapeString filePath),
    ("file_size", formatInt buf.length)]

/-- The body of a successful response (lines 186-187): the JSON text of the string map, given
to `fmt.Fprintf` as its format. -/
def responseBody (filePath : String) (buf : List Byte) : String :=
  fprintf (marshal (responseData filePath buf))

/-- The handler of `/upload` (lines 65-188): the new state of the process and the response,
or no response when the handler panics. -/
def uploadHandler (env : Env) (srv : Server) (r : Request) : Server × Option Response :=
  if r.method = "OPTIONS" then (srv, some ⟨200, corsHeaders, ""⟩)
  else if r.method ≠ "POST" then (srv, some (httpError "Only POST method is supported" 405))
  else
    let qualityStr := r.formValue "imageQuality"
    let parsed := atoi qualityStr
    if parsed.2 ≠ none ∨ parsed.1 < 0 ∨ parsed.1 > 100 then
      (srv, some (httpError invalidQuality 400))
    else
      match r.formFile with
      | none => (⟨qualityStr, srv.disk⟩, some (httpError "Error reading the file" 400))
      | some (filename, content) =>
        let fileName := formatInt env.unixNano ++ "_" ++ filename
        let filePath := clean ("uploads/" ++ fileName)
        if env.mkdirAllOk = false then
          (⟨qualityStr, srv.disk⟩, some (httpError "Error creating directory" 500))
        else if env.createOk filePath = false then
          (⟨qualityStr, srv.disk⟩, some (httpError "Error saving the file" 500))
        else
          match env.copyFault with
          | some n =>
            (⟨qualityStr, writeFile srv.disk filePath (content.take n)⟩,
              some (httpError "Error saving the file" 500))
          | none =>
            let disk := writeFile srv.disk filePath content
            let maxWidth := (atoi (r.formValue "maxWidth")).1
            let maxHeight := (atoi (r.formValue "maxHeight")).1
            match resizeImage env disk filePath filePath maxWidth maxHeight with
            | (disk, Outcome.panicked) => (⟨qualityStr, disk⟩, none)
            | (disk, Outcome.failed) =>
              (⟨qualityStr, disk⟩, some (httpError "Error resizing the image" 500))
            | (disk, Outcome.done) =>
              match processFile env qualityStr disk filePath with
              | (disk, false) =>
                (⟨qualityStr, disk⟩, some (httpError "Error processing the file" 500))
              | (disk, true) =>
                match disk.lookup (filePath ++ "-optimized.png") with
                | none =>
                  (⟨qualityStr, disk⟩,
                    some (httpError "Error opening the processed file" 500))
                | some processed =>
                  match readLoop env.readFault 0 processed [] with
                  | none =>
                    (⟨qualityStr, disk⟩,
                      some (httpError "Error reading the processed file" 500))
                  | some buf =>
                    (⟨qualityStr, disk⟩,
                      some ⟨200, ("Content-Type", "application/json") :: corsHeaders,
                        responseBody filePath buf⟩)

/-- An environment in which every operation outside the program fails. -/
def sampleEnv : Env :=
  ⟨0, false, fun _ => false, some 0, fun _ => none, fun _ => false, fun _ _ _ => ([], false),
    fun _ _ => none, none⟩

/-- The state of the process at start: `cmdArgs` holds the quality 16, no file is staged. -/
def sampleServer : Server := ⟨"16", []⟩

/-- A POST request with quality 80, no size field and no file. -/
def sampleRequest : Request :=
  ⟨"POST", fun key => if key = "imageQuality" then "80" else "", none⟩

/-- Three bytes of a processed file, the letters of `Man`. -/
def sampleBuf : List Byte := [toByte 77, toByte 97, toByte 110]

/-- An environment in which every operation succeeds: the clock reads 0, the upload decodes
to a 10 x 10 PNG, and the compressor writes the three bytes of `sampleBuf`. -/
def workingEnv : Env :=
  ⟨0, true, fun _ => true, none, fun _ => some ⟨"png", 10, 10, []⟩, fun _ => true,
    fun _ _ _ => ([], true), fun _ _ => some sampleBuf, none⟩

/-- A POST request with quality 80, maxima 100 and 100, and a file named `a%`. -/
def percentRequest : Request :=
  ⟨"POST",
    fun key =>
      if key = "imageQuality" then "80"
      else if key = "maxWidth" ∨ key = "maxHeight" then "100" else "",
    some ("a%", [])⟩

/-- The body written for `percentRequest` in `workingEnv`: the text
`{"base64":"TWFu","file_path":"uploads/0_a%!"(MISSING),"file_size":"3"}`, in which the string
of `file_path` ends at the quote that follows `%!`. -/
def percentBody : String :=
  "\x7b\x22base64\x22:\x22TWFu\x22,\x22file_path\x22:\x22uploads/0_a%!\x22(MISSING)," ++
    "\x22file_size\x22:\x223\x22\x7d"

/-- The JSON document of the string map for `percentRequest` in `workingEnv`: the text
`{"base64":"TWFu","file_path":"uploads/0_a%","file_size":"3"}`. -/
def percentDocument : String :=
  "\x7b\x22base64\x22:\x22TWFu\x22,\x22file_path\x22:\x22uploads/0_a%\x22," ++
    "\x22file_size\x22:\x223\x22\x7d"

/-! ## Rounding lemmas -/

theorem floor_le_roundHalfEven (x : ℚ) : ⌊x⌋ ≤ roundHalfEven x := by
  unfold roundHalfEven
  simp only
  split_ifs <;> omega

theorem abs_roundHalfEven_sub_le (x : ℚ) : |(roundHalfEven x : ℚ) - x| ≤ 1 / 2 := by
  have h1 : (⌊x⌋ : ℚ) ≤ x := Int.floor_le x
  have h2 : x < ⌊x⌋ + 1 := Int.lt_floor_add_one x
  unfold roundHalfEven
  simp only
  rw [abs_le]
  split_ifs with ha hb hc <;> push_cast <;> constructor <;> linarith

theorem roundHalfEven_intCast (n : ℤ) : roundHalfEven (n : ℚ) = n := by
  unfold roundHalfEven
  simp

theorem le_roundHalfEven_of_le (n : ℤ) (x : ℚ) (h : (n : ℚ) ≤ x) : n ≤ roundHalfEven x :=
  le_trans (Int.le_floor.mpr h) (floor_le_roundHalfEven x)

theorem log2_lt_of_lt {q : ℚ} {k : ℤ} (hq : 0 < q) (h : q < (2 : ℚ) ^ k) : Int.log 2 q < k := by
  have h2 : (1 : ℕ) < 2 := by norm_num
  apply (Int.lt_zpow_iff_log_lt h2 hq).mp
  simpa using h

theorem two_zpow_log_le {q : ℚ} (hq : 0 < q) : (2 : ℚ) ^ Int.log 2 q ≤ q := by
  have h2 : (1 : ℕ) < 2 := by norm_num
  have := Int.zpow_log_le_self h2 hq
  simpa using this

/-- Rounding a positive value below 2^53 never goes below an integer that is under it: the
integers up to 2^53 are all float64 values. -/
theorem intCast_le_f64 (n : ℤ) (q : ℚ) (hq : 0 < q) (hq53 : q < (2 : ℚ) ^ (53 : ℤ))
    (hn : (n : ℚ) ≤ q) : (n : ℚ) ≤ f64 q := by
  unfold f64
  rw [if_neg hq.ne']
  simp only [abs_of_pos hq]
  have he : Int.log 2 q < 53 := log2_lt_of_lt hq hq53
  obtain ⟨k, hk⟩ : ∃ k : ℕ, (52 : ℤ) - Int.log 2 q = k := ⟨(52 - Int.log 2 q).toNat, by omega⟩
  have hulp : (2 : ℚ) ^ (Int.log 2 q - 52) = ((2 : ℚ) ^ k)⁻¹ := by
    have : Int.log 2 q - 52 = -(k : ℤ) := by omega
    rw [this, zpow_neg, zpow_natCast]
  rw [hulp]
  have hpos : (0 : ℚ) < 2 ^ k := by positivity
  have h1 : ((n * 2 ^ k : ℤ) : ℚ) ≤ q / ((2 : ℚ) ^ k)⁻¹ := by
    push_cast
    rw [div_inv_eq_mul]
    exact mul_le_mul_of_nonneg_right hn hpos.le
  have h2 := le_roundHalfEven_of_le _ _ h1
  have h3 : ((n * 2 ^ k : ℤ) : ℚ) ≤ (roundHalfEven (q / ((2 : ℚ) ^ k)⁻¹) : ℚ) := by
    exact_mod_cast h2
  push_cast at h3
  rw [← div_eq_mul_inv, le_div_iff₀ hpos]
  exact h3

/-- The rounding error of `f64` is at most half a unit in the last place: a relative error of
at most 2^-53. -/
theorem f64_sub_le (q : ℚ) (hq : 0 < q) : f64 q - q ≤ q / 2 ^ 53 := by
  unfold f64
  rw [if_neg hq.ne']
  simp only [abs_of_pos hq]
  set e := Int.log 2 q with he
  have hulp : (0 : ℚ) < 2 ^ (e - 52) := by positivity
  have h1 := abs_roundHalfEven_sub_le (q / 2 ^ (e - 52))
  rw [abs_le] at h1
  have h2 : (roundHalfEven (q / 2 ^ (e - 52)) : ℚ) * 2 ^ (e - 52) - q
      = ((roundHalfEven (q / 2 ^ (e - 52)) : ℚ) - q / 2 ^ (e - 52)) * 2 ^ (e - 52) := by
    field_simp
  rw [h2]
  have h3 : ((roundHalfEven (q / 2 ^ (e - 52)) : ℚ) - q / 2 ^ (e - 52)) * 2 ^ (e - 52)
      ≤ 1 / 2 * 2 ^ (e - 52) := mul_le_mul_of_nonneg_right h1.2 hulp.le
  have h4 : (1 / 2 : ℚ) * 2 ^ (e - 52) = 2 ^ e / 2 ^ 53 := by
    rw [zpow_sub₀ (by norm_num : (2 : ℚ) ≠ 0)]
    have : (2 : ℚ) ^ (52 : ℤ) = 2 ^ 52 := by norm_cast
    rw [this, div_mul_div_comm, one_mul]
    congr 1
    norm_num
  have h5 : (2 : ℚ) ^ e / 2 ^ 53 ≤ q / 2 ^ 53 :=
    div_le_div_of_nonneg_right (two_zpow_log_le hq) (by positivity)
  linarith

/-- An integer of magnitude below 2^53 converts to float64 without rounding. -/
theorem f64_intCast (n : ℤ) (h : |n| < 2 ^ 53) : f64 (n : ℚ) = n := by
  unfold f64
  split_ifs with h0
  · exact h0.symm
  · have hq : (0 : ℚ) < |(n : ℚ)| := abs_pos.mpr h0
    have hq53 : |(n : ℚ)| < (2 : ℚ) ^ (53 : ℤ) := by
      have : ((|n| : ℤ) : ℚ) < ((2 ^ 53 : ℤ) : ℚ) := by exact_mod_cast h
      push_cast at this
      exact_mod_cast this
    simp only
    have he : Int.log 2 |(n : ℚ)| < 53 := log2_lt_of_lt hq hq53
    obtain ⟨k, hk⟩ : ∃ k : ℕ, (52 : ℤ) - Int.log 2 |(n : ℚ)| = k :=
      ⟨(52 - Int.log 2 |(n : ℚ)|).toNat, by omega⟩
    have hulp : (2 : ℚ) ^ (Int.log 2 |(n : ℚ)| - 52) = ((2 : ℚ) ^ k)⁻¹ := by
      have : Int.log 2 |(n : ℚ)| - 52 = -(k : ℤ) := by omega
      rw [this, zpow_neg, zpow_natCast]
    rw [hulp]
    have hpos : (0 : ℚ) < 2 ^ k := by positivity
    have h1 : (n : ℚ) / ((2 : ℚ) ^ k)⁻¹ = ((n * 2 ^ k : ℤ) : ℚ) := by
      push_cast
      rw [div_inv_eq_mul]
    rw [h1, roundHalfEven_intCast]
    push_cast
    field_simp

theorem f64_nonneg (q : ℚ) (hq : 0 ≤ q) : 0 ≤ f64 q := by
  unfold f64
  split_ifs with h0
  · exact le_refl _
  · simp only
    have hpos : 0 < q := lt_of_le_of_ne hq (Ne.symm h0)
    have hulp : (0 : ℚ) < 2 ^ (Int.log 2 |q| - 52) := by positivity
    have h1 : (0 : ℤ) ≤ roundHalfEven (q / 2 ^ (Int.log 2 |q| - 52)) := by
      apply le_roundHalfEven_of_le
      simpa using (div_pos hpos hulp).le
    have h2 : (0 : ℚ) ≤ (roundHalfEven (q / 2 ^ (Int.log 2 |q| - 52)) : ℚ) := by
      exact_mod_cast h1
    exact mul_nonneg h2 hulp.le

/-- The float64 quotient of two naturals has the integer quotient as its integer part when the
dividend is below 2^53: the rounding error is smaller than the distance `1/b` to the next
integer. -/
theorem floor_f64_div (a b : ℕ) (hb : 0 < b) (ha : a < 2 ^ 53) :
    ⌊f64 ((a : ℚ) / b)⌋ = ((a / b : ℕ) : ℤ) := by
  have hbq : (0 : ℚ) < b := by exact_mod_cast hb
  rcases Nat.eq_zero_or_pos a with h0 | hapos
  · subst h0
    simp [f64]
  have haq : (0 : ℚ) < a := by exact_mod_cast hapos
  have hq : (0 : ℚ) < (a : ℚ) / b := div_pos haq hbq
  have hqa : (a : ℚ) / b ≤ a := div_le_self haq.le (by exact_mod_cast hb)
  have hq53 : (a : ℚ) / b < (2 : ℚ) ^ (53 : ℤ) := by
    have : (a : ℚ) < 2 ^ 53 := by exact_mod_cast ha
    have h2 : (2 : ℚ) ^ (53 : ℤ) = 2 ^ 53 := by norm_cast
    rw [h2]; linarith
  rw [Int.floor_eq_iff]
  constructor
  · have hn : (((a / b : ℕ) : ℤ) : ℚ) ≤ (a : ℚ) / b := by
      push_cast
      exact Nat.cast_div_le
    exact intCast_le_f64 _ _ hq hq53 hn
  · have h1 := f64_sub_le _ hq
    have h2 : (a : ℚ) / b / 2 ^ 53 < 1 / b := by
      rw [div_div, div_lt_div_iff₀ (by positivity) hbq]
      have : (a : ℚ) < 2 ^ 53 := by exact_mod_cast ha
      nlinarith
    have h3 : (a : ℚ) / b + 1 / b ≤ ((a / b : ℕ) : ℚ) + 1 := by
      rw [← add_div, div_le_iff₀ hbq]
      have : a + 1 ≤ (a / b + 1) * b := by
        have := @Nat.lt_div_mul_add a b hb
        nlinarith
      exact_mod_cast this
    rw [Int.cast_natCast]
    linarith

/-- On non-negative operands below 2^53 whose product is below 2^53, the float64 expression of
`resizeImage` is the integer quotient. -/
theorem scaleDim_eq (a b c : ℤ) (ha : 0 ≤ a) (hb : 0 ≤ b) (hc : 0 < c)
    (ha53 : a < 2 ^ 53) (hb53 : b < 2 ^ 53) (hc53 : c < 2 ^ 53) (hab : a * b < 2 ^ 53) :
    scaleDim a b c = a * b / c := by
  unfold scaleDim
  rw [f64_intCast a (by rw [abs_of_nonneg ha]; exact ha53),
    f64_intCast b (by rw [abs_of_nonneg hb]; exact hb53),
    f64_intCast c (by rw [abs_of_nonneg hc.le]; exact hc53)]
  have hab0 : 0 ≤ a * b := mul_nonneg ha hb
  have hm : ((a : ℚ) * b) = ((a * b : ℤ) : ℚ) := by push_cast; rfl
  rw [hm, f64_intCast (a * b) (by rw [abs_of_nonneg hab0]; exact hab)]
  obtain ⟨n, hn⟩ := Int.eq_ofNat_of_zero_le hab0
  obtain ⟨m, hm'⟩ := Int.eq_ofNat_of_zero_le hc.le
  rw [hn, hm']
  have hmpos : 0 < m := by omega
  have hn53 : n < 2 ^ 53 := by
    have : (n : ℤ) < 2 ^ 53 := by rw [← hn]; exact hab
    exact_mod_cast this
  have hfl := floor_f64_div n m hmpos hn53
  have hq0 : (0 : ℚ) ≤ (n : ℚ) / m := by positivity
  have hnn := f64_nonneg _ hq0
  simp only [Int.cast_natCast]
  unfold truncToInt
  rw [if_pos hnn, hfl]
  exact Int.natCast_div n m

/-! ## The two steps of resizeImage on exact integers -/

/-- The dimension computation of `resizeImage`, as one case analysis on its two guards. -/
theorem resizeDims_eq (ow oh mw mh : ℤ) :
    resizeDims ow oh mw mh =
      if (if ow > mw then scaleDim oh mw ow else oh) > mh then (scaleDim ow mh oh, mh)
      else if ow > mw then (mw, scaleDim oh mw ow) else (ow, oh) := by
  unfold resizeDims
  by_cases h1 : ow > mw <;> by_cases h2 : oh > mh <;>
    by_cases h3 : scaleDim oh mw ow > mh <;> simp [h1, h2, h3]

theorem floor_intCast_div (a c : ℤ) (hc : 0 < c) : ⌊(a : ℚ) / (c : ℚ)⌋ = a / c := by
  obtain ⟨m, hm⟩ := Int.eq_ofNat_of_zero_le hc.le
  subst hm
  simpa using Rat.floor_intCast_div_natCast a m

/-- The width step on an image below 2^53 pixels: the float64 expression is the integer
quotient. -/
theorem widthStep_eq (ow oh mw : ℤ) (how : 0 < ow) (hoh : 0 < oh) (hpix : ow * oh < 2 ^ 53)
    (hmw : 0 ≤ mw) (hlt : mw < ow) : scaleDim oh mw ow = oh * mw / ow := by
  have h1 : oh ≤ ow * oh := by nlinarith
  have h2 : ow ≤ ow * oh := by nlinarith
  have h3 : oh * mw ≤ ow * oh := by nlinarith
  exact scaleDim_eq oh mw ow hoh.le hmw how (by omega) (by omega) (by omega) (by omega)

/-- The height step on an image below 2^53 pixels: the float64 expression is the integer
quotient. -/
theorem heightStep_eq (ow oh mh : ℤ) (how : 0 < ow) (hoh : 0 < oh) (hpix : ow * oh < 2 ^ 53)
    (hmh : 0 ≤ mh) (hlt : mh < oh) : scaleDim ow mh oh = ow * mh / oh := by
  have h1 : oh ≤ ow * oh := by nlinarith
  have h2 : ow ≤ ow * oh := by nlinarith
  have h3 : ow * mh ≤ ow * oh := by nlinarith
  exact scaleDim_eq ow mh oh how.le hmh hoh (by omega) (by omega) (by omega) (by omega)

/-- The scaled height never exceeds the original height. -/
theorem scaled_le (a b c : ℤ) (ha : 0 ≤ a) (hc : 0 < c) (hbc : b ≤ c) : a * b / c ≤ a := by
  apply Int.ediv_le_of_le_mul hc
  nlinarith

theorem scaled_nonneg (a b c : ℤ) (ha : 0 ≤ a) (hb : 0 ≤ b) (hc : 0 < c) : 0 ≤ a * b / c :=
  Int.ediv_nonneg (mul_nonneg ha hb) hc.le

/-- When the height scaled by the width step still exceeds `mh`, the width recomputed by the
height step is below `mw`. -/
theorem rescaled_width_lt (ow oh mw mh : ℤ) (how : 0 < ow) (hoh : 0 < oh)
    (h : mh < oh * mw / ow) : ow * mh / oh < mw := by
  have h1 : (mh + 1) * ow ≤ oh * mw := (Int.le_ediv_iff_mul_le how).mp h
  apply Int.ediv_lt_of_lt_mul hoh
  nlinarith

/-- The dimensions of `resizeImage` on exact integers, for an image below 2^53 pixels and
non-negative maxima. -/
theorem resizeDims_exact (ow oh mw mh : ℤ) (how : 0 < ow) (hoh : 0 < oh)
    (hpix : ow * oh < 2 ^ 53) (hmw : 0 ≤ mw) (hmh : 0 ≤ mh) :
    resizeDims ow oh mw mh =
      if ow > mw then
        (if oh * mw / ow > mh then (ow * mh / oh, mh) else (mw, oh * mw / ow))
      else (if oh > mh then (ow * mh / oh, mh) else (ow, oh)) := by
  rw [resizeDims_eq]
  by_cases h1 : ow > mw
  · have e1 := widthStep_eq ow oh mw how hoh hpix hmw h1
    simp only [h1, if_true, e1]
    by_cases h2 : oh * mw / ow > mh
    · have hle := scaled_le oh mw ow hoh.le how (le_of_lt h1)
      have e2 := heightStep_eq ow oh mh how hoh hpix hmh (by omega)
      simp only [h2, if_true, e2]
    · simp only [h2, if_false]
  · simp only [h1, if_false]
    by_cases h2 : oh > mh
    · have e2 := heightStep_eq ow oh mh how hoh hpix hmh h2
      simp only [h2, if_true, e2]
    · simp only [h2, if_false]

theorem truncToInt_div_nonneg (a c : ℤ) (ha : 0 ≤ a) (hc : 0 < c) :
    truncToInt ((a : ℚ) / (c : ℚ)) = a / c := by
  have hq : (0 : ℚ) ≤ (a : ℚ) / (c : ℚ) := by
    have h1 : (0 : ℚ) ≤ (a : ℚ) := by exact_mod_cast ha
    have h2 : (0 : ℚ) < (c : ℚ) := by exact_mod_cast hc
    positivity
  unfold truncToInt
  rw [if_pos hq, floor_intCast_div a c hc]

theorem truncToInt_nonpos (q : ℚ) (hq : q ≤ 0) : truncToInt q ≤ 0 := by
  unfold truncToInt
  split_ifs with h
  · have : q = 0 := le_antisymm hq h
    subst this
    simp
  · exact Int.ceil_le.mpr (by simpa using hq)

theorem scaleDim_zero_mid (a c : ℤ) : scaleDim a 0 c = 0 := by
  simp [scaleDim, f64, truncToInt]

theorem scaleDim_nonneg (a b c : ℤ) (ha : 0 ≤ a) (hb : 0 ≤ b) (hc : 0 ≤ c) :
    0 ≤ scaleDim a b c := by
  unfold scaleDim
  have h1 : (0 : ℚ) ≤ f64 a := f64_nonneg _ (by exact_mod_cast ha)
  have h2 : (0 : ℚ) ≤ f64 b := f64_nonneg _ (by exact_mod_cast hb)
  have h3 : (0 : ℚ) ≤ f64 c := f64_nonneg _ (by exact_mod_cast hc)
  have h4 : (0 : ℚ) ≤ f64 (f64 a * f64 b) := f64_nonneg _ (mul_nonneg h1 h2)
  have h5 : (0 : ℚ) ≤ f64 (f64 (f64 a * f64 b) / f64 c) := f64_nonneg _ (div_nonneg h4 h3)
  unfold truncToInt
  rw [if_pos h5]
  exact Int.floor_nonneg.mpr h5

/-! ## The claims on resizeImage -/

/-- C1: for every image with positive original dimensions (below 2^53 pixels, where the float64
arithmetic of the code is exact) and non-negative maxima, the dimensions computed for the new
canvas satisfy width <= maxWidth and height <= maxHeight, whichever steps fire. -/
theorem resizeImage_within_maxima (ow oh mw mh : ℤ) (how : 0 < ow) (hoh : 0 < oh)
    (hpix : ow * oh < 2 ^ 53) (hmw : 0 ≤ mw) (hmh : 0 ≤ mh) :
    (resizeDims ow oh mw mh).1 ≤ mw ∧ (resizeDims ow oh mw mh).2 ≤ mh := by
  rw [resizeDims_exact ow oh mw mh how hoh hpix hmw hmh]
  by_cases h1 : ow > mw
  · by_cases h2 : oh * mw / ow > mh
    · simp only [h1, h2, if_true]
      exact ⟨le_of_lt (rescaled_width_lt ow oh mw mh how hoh h2), le_refl _⟩
    · simp only [h1, h2, if_true, if_false]
      exact ⟨le_refl _, not_lt.mp h2⟩
  · by_cases h2 : oh > mh
    · simp only [h1, h2, if_true, if_false]
      have := scaled_le ow mh oh how.le hoh (le_of_lt h2)
      exact ⟨by omega, le_refl _⟩
    · simp only [h1, h2, if_false]
      exact ⟨not_lt.mp h1, not_lt.mp h2⟩

theorem resizeImage_within_maxima_witness :
    (0 : ℤ) < 4000 ∧ (0 : ℤ) < 1000 ∧ (4000 : ℤ) * 1000 < 2 ^ 53 ∧ (0 : ℤ) ≤ 1000 ∧
      (0 : ℤ) ≤ 100 ∧
      ((resizeDims 4000 1000 1000 100).1 ≤ 1000 ∧ (resizeDims 4000 1000 1000 100).2 ≤ 100) :=
  ⟨by decide, by decide, by norm_num, by decide, by decide,
    resizeImage_within_maxima 4000 1000 1000 100 (by decide) (by decide) (by norm_num)
      (by decide) (by decide)⟩

/-- C3, amended: two-pass height case. For every image with positive original dimensions (below
2^53 pixels, where the float64 arithmetic of the code is exact) and every non-negative
maxHeight that the height after the width step (oh if ow <= maxWidth, otherwise the truncation
of oh*maxWidth/ow) still exceeds, the final dimensions are exactly
(floor(ow*maxHeight/oh), maxHeight): the width comes from the original ratio, not from the
intermediate width. A 4000 x 1000 image with maxima 1000 and 100 gives (400, 100). -/
theorem resizeImage_two_pass_height (ow oh mw mh : ℤ) (how : 0 < ow) (hoh : 0 < oh)
    (hpix : ow * oh < 2 ^ 53) (hmh : 0 ≤ mh)
    (hfire : mh < (if ow ≤ mw then oh else truncToInt (((oh * mw : ℤ) : ℚ) / (ow : ℚ)))) :
    resizeDims ow oh mw mh = (⌊((ow * mh : ℤ) : ℚ) / (oh : ℚ)⌋, mh) := by
  rw [floor_intCast_div _ _ hoh]
  by_cases h1 : ow ≤ mw
  · rw [if_pos h1] at hfire
    rw [resizeDims_exact ow oh mw mh how hoh hpix (by omega) hmh]
    simp [not_lt.mpr h1, hfire]
  · rw [if_neg h1] at hfire
    have hmw : 0 ≤ mw := by
      by_contra hneg
      have hq : (((oh * mw : ℤ) : ℚ) / (ow : ℚ)) ≤ 0 := by
        have h2 : ((oh * mw : ℤ) : ℚ) ≤ 0 := by
          have : oh * mw ≤ 0 := by nlinarith
          exact_mod_cast this
        have h3 : (0 : ℚ) < (ow : ℚ) := by exact_mod_cast how
        exact div_nonpos_of_nonpos_of_nonneg h2 h3.le
      have := truncToInt_nonpos _ hq
      omega
    rw [truncToInt_div_nonneg _ _ (mul_nonneg hoh.le hmw) how] at hfire
    rw [resizeDims_exact ow oh mw mh how hoh hpix hmw hmh]
    simp [not_le.mp h1, hfire]

theorem resizeImage_two_pass_height_witness :
    (0 : ℤ) < 4000 ∧ (0 : ℤ) < 1000 ∧ (4000 : ℤ) * 1000 < 2 ^ 53 ∧ (0 : ℤ) ≤ 100 ∧
      resizeDims 4000 1000 1000 100 = (400, 100) := by
  have h := resizeImage_two_pass_height 4000 1000 1000 100 (by decide) (by decide)
    (by norm_num) (by decide)
    (by rw [if_neg (by decide), truncToInt_div_nonneg _ _ (by decide) (by decide)]; decide)
  rw [floor_intCast_div _ _ (by decide)] at h
  exact ⟨by decide, by decide, by norm_num, by decide, h⟩

/-- C4, amended: width-only case. For every image with positive original dimensions (below 2^53
pixels, where the float64 arithmetic of the code is exact) wider than a non-negative maxWidth,
whose proportionally scaled height floor(oh*maxWidth/ow) is <= maxHeight, the output
dimensions are exactly (maxWidth, floor(oh*maxWidth/ow)): the height step does not fire. -/
theorem resizeImage_width_only (ow oh mw mh : ℤ) (how : 0 < ow) (hoh : 0 < oh)
    (hpix : ow * oh < 2 ^ 53) (hmw : 0 ≤ mw) (hwide : ow > mw)
    (hfit : ⌊((oh * mw : ℤ) : ℚ) / (ow : ℚ)⌋ ≤ mh) :
    resizeDims ow oh mw mh = (mw, ⌊((oh * mw : ℤ) : ℚ) / (ow : ℚ)⌋) := by
  rw [floor_intCast_div _ _ how] at hfit ⊢
  have hmh : 0 ≤ mh := le_trans (scaled_nonneg oh mw ow hoh.le hmw how) hfit
  rw [resizeDims_exact ow oh mw mh how hoh hpix hmw hmh]
  simp [hwide, not_lt.mpr hfit]

theorem resizeImage_width_only_witness :
    (0 : ℤ) < 4000 ∧ (0 : ℤ) < 1000 ∧ (4000 : ℤ) * 1000 < 2 ^ 53 ∧ (0 : ℤ) ≤ 1000 ∧
      (4000 : ℤ) > 1000 ∧ resizeDims 4000 1000 1000 300 = (1000, 250) := by
  have h := resizeImage_width_only 4000 1000 1000 300 (by decide) (by decide)
    (by norm_num) (by decide) (by decide)
    (by rw [floor_intCast_div _ _ (by decide)]; decide)
  rw [floor_intCast_div _ _ (by decide)] at h
  exact ⟨by decide, by decide, by norm_num, by decide, by decide, h⟩

/-- C5: for every image whose original width is <= maxWidth and whose original height is
<= maxHeight, the dimensions are unchanged: the new canvas is originalWidth x
originalHeight. -/
theorem resizeImage_unchanged_within (ow oh mw mh : ℤ) (hw : ow ≤ mw) (hh : oh ≤ mh) :
    resizeDims ow oh mw mh = (ow, oh) := by
  rw [resizeDims_eq]
  simp [not_lt.mpr hw, not_lt.mpr hh]

theorem resizeImage_unchanged_within_witness :
    (800 : ℤ) ≤ 1000 ∧ (600 : ℤ) ≤ 600 ∧ resizeDims 800 600 1000 600 = (800, 600) :=
  ⟨by decide, by decide, resizeImage_unchanged_within 800 600 1000 600 (by decide) (by decide)⟩

/-- C6: resizeImage never upscales. For every image with positive original dimensions (below
2^53 pixels) and non-negative maxima, the computed dimensions satisfy width <= ow and
height <= oh, whichever of the two steps fire. -/
theorem resizeImage_never_upscales (ow oh mw mh : ℤ) (how : 0 < ow) (hoh : 0 < oh)
    (hpix : ow * oh < 2 ^ 53) (hmw : 0 ≤ mw) (hmh : 0 ≤ mh) :
    (resizeDims ow oh mw mh).1 ≤ ow ∧ (resizeDims ow oh mw mh).2 ≤ oh := by
  rw [resizeDims_exact ow oh mw mh how hoh hpix hmw hmh]
  by_cases h1 : ow > mw
  · have hle := scaled_le oh mw ow hoh.le how (le_of_lt h1)
    by_cases h2 : oh * mw / ow > mh
    · simp only [h1, h2, if_true]
      have := scaled_le ow mh oh how.le hoh (by omega)
      exact ⟨this, by omega⟩
    · simp only [h1, h2, if_true, if_false]
      exact ⟨le_of_lt h1, hle⟩
  · by_cases h2 : oh > mh
    · simp only [h1, h2, if_true, if_false]
      exact ⟨scaled_le ow mh oh how.le hoh (le_of_lt h2), le_of_lt h2⟩
    · simp only [h1, h2, if_false]
      exact ⟨le_refl _, le_refl _⟩

theorem resizeImage_never_upscales_witness :
    (0 : ℤ) < 4000 ∧ (0 : ℤ) < 1000 ∧ (4000 : ℤ) * 1000 < 2 ^ 53 ∧ (0 : ℤ) ≤ 1000 ∧
      (0 : ℤ) ≤ 100 ∧
      ((resizeDims 4000 1000 1000 100).1 ≤ 4000 ∧ (resizeDims 4000 1000 1000 100).2 ≤ 1000) :=
  ⟨by decide, by decide, by norm_num, by decide, by decide,
    resizeImage_never_upscales 4000 1000 1000 100 (by decide) (by decide) (by norm_num)
      (by decide) (by decide)⟩

theorem abs_scaled_sub_lt (a b c : ℤ) (hc : 0 < c) : |a * b / c * c - a * b| < c := by
  have h1 := Int.ediv_add_emod (a * b) c
  have h2 := Int.emod_nonneg (a * b) hc.ne'
  have h3 := Int.emod_lt_of_pos (a * b) hc
  have h4 : a * b / c * c - a * b = -((a * b) % c) := by
    have : c * (a * b / c) = a * b / c * c := mul_comm _ _
    omega
  rw [h4, abs_neg, abs_of_nonneg h2]
  exact h3

/-- C7: resizeImage keeps the aspect ratio up to integer truncation. For every image with
positive original dimensions (below 2^53 pixels) and non-negative maxima, the output (w, h) is
(ow, oh), or has h = floor(oh*w/ow), or has w = floor(ow*h/oh); and in each case
|w*oh - h*ow| < max(ow, oh). -/
theorem resizeImage_keeps_ratio (ow oh mw mh : ℤ) (how : 0 < ow) (hoh : 0 < oh)
    (hpix : ow * oh < 2 ^ 53) (hmw : 0 ≤ mw) (hmh : 0 ≤ mh) :
    (resizeDims ow oh mw mh = (ow, oh) ∨
      (resizeDims ow oh mw mh).2
        = ⌊((oh * (resizeDims ow oh mw mh).1 : ℤ) : ℚ) / (ow : ℚ)⌋ ∨
      (resizeDims ow oh mw mh).1
        = ⌊((ow * (resizeDims ow oh mw mh).2 : ℤ) : ℚ) / (oh : ℚ)⌋) ∧
    |(resizeDims ow oh mw mh).1 * oh - (resizeDims ow oh mw mh).2 * ow| < max ow oh := by
  rw [floor_intCast_div _ _ how, floor_intCast_div _ _ hoh,
    resizeDims_exact ow oh mw mh how hoh hpix hmw hmh]
  have hstep2 : |ow * mh / oh * oh - mh * ow| < max ow oh := by
    have := abs_scaled_sub_lt ow mh oh hoh
    rw [mul_comm mh ow]
    exact lt_of_lt_of_le this (le_max_right _ _)
  have hstep1 : |mw * oh - oh * mw / ow * ow| < max ow oh := by
    have := abs_scaled_sub_lt oh mw ow how
    rw [abs_sub_comm, mul_comm mw oh]
    exact lt_of_lt_of_le this (le_max_left _ _)
  by_cases h1 : ow > mw
  · by_cases h2 : oh * mw / ow > mh
    · rw [if_pos h1, if_pos h2]
      exact ⟨Or.inr (Or.inr rfl), hstep2⟩
    · rw [if_pos h1, if_neg h2]
      exact ⟨Or.inr (Or.inl rfl), hstep1⟩
  · by_cases h2 : oh > mh
    · rw [if_neg h1, if_pos h2]
      exact ⟨Or.inr (Or.inr rfl), hstep2⟩
    · rw [if_neg h1, if_neg h2]
      refine ⟨Or.inl rfl, ?_⟩
      rw [mul_comm ow oh, sub_self, abs_zero]
      exact lt_of_lt_of_le how (le_max_left _ _)

theorem resizeImage_keeps_ratio_witness :
    (0 : ℤ) < 4000 ∧ (0 : ℤ) < 1000 ∧ (4000 : ℤ) * 1000 < 2 ^ 53 ∧ (0 : ℤ) ≤ 1000 ∧
      (0 : ℤ) ≤ 100 ∧
      ((resizeDims 4000 1000 1000 100 = (4000, 1000) ∨
        (resizeDims 4000 1000 1000 100).2
          = ⌊((1000 * (resizeDims 4000 1000 1000 100).1 : ℤ) : ℚ) / ((4000 : ℤ) : ℚ)⌋ ∨
        (resizeDims 4000 1000 1000 100).1
          = ⌊((4000 * (resizeDims 4000 1000 1000 100).2 : ℤ) : ℚ) / ((1000 : ℤ) : ℚ)⌋) ∧
      |(resizeDims 4000 1000 1000 100).1 * 1000 - (resizeDims 4000 1000 1000 100).2 * 4000|
        < max 4000 1000) :=
  ⟨by decide, by decide, by norm_num, by decide, by decide,
    resizeImage_keeps_ratio 4000 1000 1000 100 (by decide) (by decide) (by norm_num)
      (by decide) (by decide)⟩

theorem resizeDims_3_2_2_1 : resizeDims 3 2 2 1 = (2, 1) := by
  rw [resizeDims_exact 3 2 2 1 (by decide) (by decide) (by norm_num) (by decide) (by decide)]
  decide

theorem minScaleDims_3_2_2_1 : minScaleDims 3 2 2 1 = (1, 1) := by
  have hs : min (1 : ℚ) (min (((2 : ℤ) : ℚ) / ((3 : ℤ) : ℚ)) (((1 : ℤ) : ℚ) / ((2 : ℤ) : ℚ)))
      = 1 / 2 := by
    norm_num
  unfold minScaleDims
  simp only [hs]
  have h1 : ⌊((3 : ℤ) : ℚ) * (1 / 2)⌋ = 1 := by
    rw [Int.floor_eq_iff]; norm_num
  have h2 : ⌊((2 : ℤ) : ℚ) * (1 / 2)⌋ = 1 := by
    rw [Int.floor_eq_iff]; norm_num
  rw [h1, h2]

/-- C10: the two-pass computation of resizeImage is not the single min-scale-factor
computation: there are positive original dimensions and positive maxima for which the
dimensions it produces differ from (floor(ow*s), floor(oh*s)) with
s = min(1, maxWidth/ow, maxHeight/oh) computed exactly. A 3 x 2 image with maxima 2 and 1
gives (2, 1), the single scale factor 1/2 gives (1, 1). -/
theorem resizeImage_not_min_scale :
    ∃ ow oh mw mh : ℤ, 0 < ow ∧ 0 < oh ∧ 0 < mw ∧ 0 < mh ∧
      resizeDims ow oh mw mh ≠ minScaleDims ow oh mw mh := by
  refine ⟨3, 2, 2, 1, by decide, by decide, by decide, by decide, ?_⟩
  rw [resizeDims_3_2_2_1, minScaleDims_3_2_2_1]
  decide

theorem resizeDims_zero_width (ow oh mh : ℤ) (how : 0 < ow) (hmh : 0 ≤ mh) :
    resizeDims ow oh 0 mh = (0, 0) := by
  rw [resizeDims_eq]
  simp [how, scaleDim_zero_mid, not_lt.mpr hmh]

theorem resizeDims_zero_height (ow oh mw : ℤ) (how : 0 < ow) (hoh : 0 < oh) (hmw : 0 ≤ mw) :
    (resizeDims ow oh mw 0).2 = 0 := by
  rw [resizeDims_eq]
  by_cases h1 : ow > mw
  · have hnn := scaleDim_nonneg oh mw ow hoh.le hmw how.le
    by_cases h2 : scaleDim oh mw ow > 0
    · simp [h1, h2]
    · simp only [h1, h2, if_true, if_false]
      omega
  · simp [h1, hoh]

theorem resizeDims_100_50_0_50 : resizeDims 100 50 0 50 = (0, 0) :=
  resizeDims_zero_width 100 50 50 (by decide) (by decide)

theorem resizeDims_100_50_0_0 : resizeDims 100 50 0 0 = (0, 0) :=
  resizeDims_zero_width 100 50 0 (by decide) (by decide)

/-- C2, refuted as stated: a maximum of 0 is not "unbounded". For a 100 x 50 image,
maxWidth = 0 with maxHeight = 50 gives the dimensions (0, 0) where maxWidth = 100 gives
(100, 50), and maxWidth = 0 with maxHeight = 0 gives (0, 0), not the unchanged (100, 50). -/
theorem zero_maximum_not_unbounded :
    resizeDims 100 50 0 50 = (0, 0) ∧ resizeDims 100 50 100 50 = (100, 50) ∧
      resizeDims 100 50 0 50 ≠ resizeDims 100 50 100 50 ∧ resizeDims 100 50 0 0 ≠ (100, 50) := by
  have h1 : resizeDims 100 50 100 50 = (100, 50) := by
    rw [resizeDims_eq]
    simp
  refine ⟨resizeDims_100_50_0_50, h1, ?_, ?_⟩
  · rw [resizeDims_100_50_0_50, h1]
    decide
  · rw [resizeDims_100_50_0_0]
    decide

/-- C2, amended: a maximum of 0 is a bound like any other. For every image with positive
original dimensions, maxWidth = 0 gives the dimensions (0, 0) whatever the non-negative
maxHeight, and maxHeight = 0 gives height 0 whatever the non-negative maxWidth; the maxima
that leave an axis unbounded are those at or above the original dimension: any two
maxWidth >= originalWidth give the same dimensions, and (below 2^53 pixels) so do any two
maxHeight >= originalHeight. A missing form field parses to 0. -/
theorem zero_maximum_is_a_bound (ow oh : ℤ) (how : 0 < ow) (hoh : 0 < oh) :
    (∀ mh : ℤ, 0 ≤ mh → resizeDims ow oh 0 mh = (0, 0)) ∧
    (∀ mw : ℤ, 0 ≤ mw → (resizeDims ow oh mw 0).2 = 0) ∧
    (∀ mw mw2 mh : ℤ, ow ≤ mw → ow ≤ mw2 →
      resizeDims ow oh mw mh = resizeDims ow oh mw2 mh) ∧
    (∀ mw mh mh2 : ℤ, ow * oh < 2 ^ 53 → 0 ≤ mw → oh ≤ mh → oh ≤ mh2 →
      resizeDims ow oh mw mh = resizeDims ow oh mw mh2) ∧
    (atoi "").1 = 0 := by
  refine ⟨fun mh hmh => resizeDims_zero_width ow oh mh how hmh,
    fun mw hmw => resizeDims_zero_height ow oh mw how hoh hmw, ?_, ?_, ?_⟩
  · intro mw mw2 mh h1 h2
    rw [resizeDims_eq, resizeDims_eq]
    simp [not_lt.mpr h1, not_lt.mpr h2]
  · intro mw mh mh2 hpix hmw h1 h2
    rw [resizeDims_exact ow oh mw mh how hoh hpix hmw (by omega),
      resizeDims_exact ow oh mw mh2 how hoh hpix hmw (by omega)]
    by_cases hw : ow > mw
    · have hle := scaled_le oh mw ow hoh.le how (le_of_lt hw)
      have e1 : ¬ oh * mw / ow > mh := by omega
      have e2 : ¬ oh * mw / ow > mh2 := by omega
      rw [if_pos hw, if_pos hw, if_neg e1, if_neg e2]
    · have e1 : ¬ oh > mh := by omega
      have e2 : ¬ oh > mh2 := by omega
      rw [if_neg hw, if_neg hw, if_neg e1, if_neg e2]
  · decide

theorem zero_maximum_is_a_bound_witness :
    (0 : ℤ) < 100 ∧ (0 : ℤ) < 50 ∧ resizeDims 100 50 0 0 = (0, 0) :=
  ⟨by decide, by decide,
    (zero_maximum_is_a_bound 100 50 (by decide) (by decide)).1 0 (by decide)⟩

/-! ## Negative maxima: truncation is not the floor -/

/-- Minus one half is a float64. -/
theorem f64_neg_half : f64 (-1 / 2) = -1 / 2 := by
  have hlog : Int.log 2 |(-1 / 2 : ℚ)| = -1 := by
    have h2 : (1 : ℕ) < 2 := by norm_num
    have h := @Int.log_zpow ℚ _ _ 2 h2 (-1)
    have e : |(-1 / 2 : ℚ)| = ((2 : ℕ) : ℚ) ^ (-1 : ℤ) := by
      rw [abs_of_neg (by norm_num)]
      norm_num
    rw [e]
    exact h
  unfold f64
  rw [if_neg (by norm_num)]
  simp only [hlog]
  have hq : (-1 / 2 : ℚ) / 2 ^ ((-1 : ℤ) - 52) = ((-(2 ^ 52) : ℤ) : ℚ) := by
    norm_num
  rw [hq, roundHalfEven_intCast]
  norm_num

theorem truncToInt_neg_half : truncToInt (-1 / 2) = 0 := by
  unfold truncToInt
  rw [if_neg (by norm_num), Int.ceil_eq_iff]
  norm_num

/-- The code's `int(float64(1) * float64(-1) / float64(2))` is `int(-0.5)`, which is 0. -/
theorem scaleDim_one_negOne_two : scaleDim 1 (-1) 2 = 0 := by
  unfold scaleDim
  rw [f64_intCast 1 (by norm_num), f64_intCast (-1) (by norm_num), f64_intCast 2 (by norm_num)]
  have hm : (((1 : ℤ) : ℚ) * ((-1 : ℤ) : ℚ)) = ((-1 : ℤ) : ℚ) := by norm_num
  rw [hm, f64_intCast (-1) (by norm_num)]
  have hd : (((-1 : ℤ) : ℚ) / ((2 : ℤ) : ℚ)) = -1 / 2 := by norm_num
  rw [hd, f64_neg_half, truncToInt_neg_half]

theorem floor_neg_half : ⌊(((1 * (-1) : ℤ) : ℚ)) / ((2 : ℤ) : ℚ)⌋ = -1 := by
  rw [floor_intCast_div _ _ (by decide)]
  decide

/-- C3, refuted as stated: with a negative maxHeight the height step fires and the width is the
truncation toward zero, not the floor. A 1 x 2 image with maxWidth = 5 and maxHeight = -1
passes the width step unchanged, its height 2 exceeds -1, and the final dimensions are
(0, -1), where floor(1 * (-1) / 2) = -1. -/
theorem two_pass_height_negative_maximum :
    (0 : ℤ) < 1 ∧ (0 : ℤ) < 2 ∧
      (-1 : ℤ) < (if (1 : ℤ) ≤ 5 then (2 : ℤ)
        else truncToInt (((2 * 5 : ℤ) : ℚ) / ((1 : ℤ) : ℚ))) ∧
      resizeDims 1 2 5 (-1) = (0, -1) ∧
      resizeDims 1 2 5 (-1) ≠ (⌊(((1 * (-1) : ℤ) : ℚ)) / ((2 : ℤ) : ℚ)⌋, -1) := by
  have h : resizeDims 1 2 5 (-1) = (0, -1) := by
    rw [resizeDims_eq]
    simp [scaleDim_one_negOne_two]
  refine ⟨by decide, by decide, by decide, h, ?_⟩
  rw [h, floor_neg_half]
  decide

/-- C4, refuted as stated: with a negative maxWidth the scaled height is the truncation toward
zero, not the floor. A 2 x 1 image with maxWidth = -1 and maxHeight = 0 is wider than
maxWidth, floor(1 * (-1) / 2) = -1 is at most maxHeight, and the dimensions are (-1, 0), not
(-1, -1). -/
theorem width_only_negative_maximum :
    (0 : ℤ) < 2 ∧ (0 : ℤ) < 1 ∧ (2 : ℤ) > -1 ∧
      ⌊(((1 * (-1) : ℤ) : ℚ)) / ((2 : ℤ) : ℚ)⌋ ≤ 0 ∧
      resizeDims 2 1 (-1) 0 = (-1, 0) ∧
      resizeDims 2 1 (-1) 0 ≠ (-1, ⌊(((1 * (-1) : ℤ) : ℚ)) / ((2 : ℤ) : ℚ)⌋) := by
  have h : resizeDims 2 1 (-1) 0 = (-1, 0) := by
    rw [resizeDims_eq]
    simp [scaleDim_one_negOne_two]
  refine ⟨by decide, by decide, by decide, ?_, h, ?_⟩
  · rw [floor_neg_half]
    decide
  · rw [h, floor_neg_half]
    decide

/-! ## The quality check of the handler -/

/-- A request rejected by the quality check: the response of the check, and the state of the
process is the one before the request. -/
theorem uploadHandler_rejected (env : Env) (srv : Server) (r : Request)
    (hpost : r.method = "POST")
    (hrej : (atoi (r.formValue "imageQuality")).2 ≠ none ∨
      (atoi (r.formValue "imageQuality")).1 < 0 ∨ (atoi (r.formValue "imageQuality")).1 > 100) :
    uploadHandler env srv r = (srv, some (httpError invalidQuality 400)) := by
  have h1 : ¬ ("POST" = "OPTIONS") := by decide
  unfold uploadHandler
  simp only [hpost, h1, if_false, ne_eq, not_true_eq_false]
  rw [if_pos hrej]

/-- The body of a successful response starts with an opening brace, so it is not the message
of the quality check. -/
theorem responseBody_ne_invalidQuality (filePath : String) (buf : List Byte) :
    responseBody filePath buf ≠ (httpError invalidQuality 400).body := by
  intro h
  have h1 : (responseBody filePath buf).data.head? = some (Char.ofNat 123) := by
    simp [responseBody, fprintf, marshal, doPrintf]
  have h2 : ((httpError invalidQuality 400).body).data.head? = some (Char.ofNat 73) := by
    decide
  rw [h, h2] at h1
  exact absurd h1 (by decide)

/-- A request accepted by the quality check: the shared setting is the submitted string and
no response is the one of the quality check. -/
theorem uploadHandler_accepted (env : Env) (srv : Server) (r : Request)
    (hpost : r.method = "POST")
    (hacc : ¬ ((atoi (r.formValue "imageQuality")).2 ≠ none ∨
      (atoi (r.formValue "imageQuality")).1 < 0 ∨ (atoi (r.formValue "imageQuality")).1 > 100)) :
    (uploadHandler env srv r).1.imageQuality = r.formValue "imageQuality" ∧
      ∀ resp : Response, (uploadHandler env srv r).2 = some resp →
        resp.body ≠ (httpError invalidQuality 400).body := by
  have h1 : ¬ ("POST" = "OPTIONS") := by decide
  have herr : ∀ (msg : String) (code : ℕ) (resp : Response),
      (httpError msg code).body ≠ (httpError invalidQuality 400).body →
      some (httpError msg code) = some resp →
      resp.body ≠ (httpError invalidQuality 400).body := by
    intro msg code resp hne hsome
    rw [← Option.some.inj hsome]
    exact hne
  unfold uploadHandler
  simp only [hpost, h1, if_false, ne_eq, not_true_eq_false]
  rw [if_neg hacc]
  split
  · exact ⟨rfl, fun resp => herr _ _ resp (by decide)⟩
  · split_ifs
    · exact ⟨rfl, fun resp => herr _ _ resp (by decide)⟩
    · exact ⟨rfl, fun resp => herr _ _ resp (by decide)⟩
    · split
      · exact ⟨rfl, fun resp => herr _ _ resp (by decide)⟩
      · split
        · exact ⟨rfl, fun resp h => by simp at h⟩
        · exact ⟨rfl, fun resp => herr _ _ resp (by decide)⟩
        · split
          · exact ⟨rfl, fun resp => herr _ _ resp (by decide)⟩
          · split
            · exact ⟨rfl, fun resp => herr _ _ resp (by decide)⟩
            · split
              · exact ⟨rfl, fun resp => herr _ _ resp (by decide)⟩
              · refine ⟨rfl, fun resp h => ?_⟩
                rw [← Option.some.inj h]
                exact responseBody_ne_invalidQuality _ _

/-- C8: quality validation of uploadHandler on a POST request. If the imageQuality string parses
(strconv.Atoi) to an integer q with 0 <= q <= 100, the request passes the quality check: no
response is the 400 of the check and the shared quality setting becomes the string. If the
string does not parse (a missing field is the empty string, which does not parse) or parses to
an integer outside [0, 100], the status is 400 and the state of the process, the shared
quality setting and the files on disk, is left unchanged. -/
theorem uploadHandler_quality_validation (env : Env) (srv : Server) (r : Request)
    (hpost : r.method = "POST") :
    (∀ q : ℤ, atoi (r.formValue "imageQuality") = (q, none) → 0 ≤ q → q ≤ 100 →
      (uploadHandler env srv r).1.imageQuality = r.formValue "imageQuality" ∧
        ∀ resp : Response, (uploadHandler env srv r).2 = some resp →
          resp.body ≠ (httpError invalidQuality 400).body) ∧
    (((atoi (r.formValue "imageQuality")).2 ≠ none ∨
        (atoi (r.formValue "imageQuality")).1 < 0 ∨
        100 < (atoi (r.formValue "imageQuality")).1) →
      (uploadHandler env srv r).2.map Response.status = some 400 ∧
        (uploadHandler env srv r).2 = some (httpError invalidQuality 400) ∧
        (uploadHandler env srv r).1 = srv) ∧
    (r.formValue "imageQuality" = "" →
      (uploadHandler env srv r).2.map Response.status = some 400 ∧
        (uploadHandler env srv r).1 = srv) := by
  refine ⟨?_, ?_, ?_⟩
  · intro q hq h0 h100
    apply uploadHandler_accepted env srv r hpost
    rw [hq]
    simp only [ne_eq, not_true_eq_false, false_or, not_or, not_lt, gt_iff_lt]
    exact ⟨h0, h100⟩
  · intro hrej
    rw [uploadHandler_rejected env srv r hpost hrej]
    exact ⟨rfl, rfl, rfl⟩
  · intro hempty
    have hrej : (atoi (r.formValue "imageQuality")).2 ≠ none ∨
        (atoi (r.formValue "imageQuality")).1 < 0 ∨
        (atoi (r.formValue "imageQuality")).1 > 100 := by
      rw [hempty]
      exact Or.inl (by decide)
    rw [uploadHandler_rejected env srv r hpost hrej]
    exact ⟨rfl, rfl⟩

theorem uploadHandler_quality_validation_witness :
    sampleRequest.method = "POST" ∧
      (uploadHandler sampleEnv sampleServer sampleRequest).1.imageQuality = "80" ∧
      ∀ resp : Response, (uploadHandler sampleEnv sampleServer sampleRequest).2 = some resp →
        resp.body ≠ (httpError invalidQuality 400).body :=
  ⟨rfl, (uploadHandler_quality_validation sampleEnv sampleServer sampleRequest rfl).1 80
    (by decide) (by decide) (by decide)⟩

/-! ## base64: decoding inverts encoding -/

theorem decodeSextet_encodeSextet_fin :
    ∀ i : Fin 64, decodeSextet (encodeStd.getD i.val padChar) = some i.val := by
  decide

theorem encodeSextet_ne_special_fin :
    ∀ i : Fin 64, encodeStd.getD i.val padChar ≠ padChar ∧
      encodeStd.getD i.val padChar ≠ Char.ofNat 13 ∧
      encodeStd.getD i.val padChar ≠ Char.ofNat 10 := by
  decide

theorem decodeSextet_encodeSextet (v : ℕ) : decodeSextet (encodeSextet v) = some (v % 64) :=
  decodeSextet_encodeSextet_fin ⟨v % 64, Nat.mod_lt v (by decide)⟩

theorem encodeSextet_ne_pad (v : ℕ) : encodeSextet v ≠ padChar :=
  (encodeSextet_ne_special_fin ⟨v % 64, Nat.mod_lt v (by decide)⟩).1

theorem encodeSextet_keep (v : ℕ) :
    (decide (encodeSextet v ≠ Char.ofNat 13 ∧ encodeSextet v ≠ Char.ofNat 10)) = true := by
  have h := encodeSextet_ne_special_fin ⟨v % 64, Nat.mod_lt v (by decide)⟩
  exact decide_eq_true ⟨h.2.1, h.2.2⟩

theorem padChar_keep :
    (decide (padChar ≠ Char.ofNat 13 ∧ padChar ≠ Char.ofNat 10)) = true := by
  decide

/-- The characters of an encoding are never skipped by the decoder. -/
theorem filter_encodeBytes : ∀ src : List Byte,
    (encodeBytes src).filter (fun c => c ≠ Char.ofNat 13 ∧ c ≠ Char.ofNat 10)
      = encodeBytes src
  | [] => rfl
  | [a] => by
    simp only [encodeBytes, List.filter_cons, encodeSextet_keep, padChar_keep, if_true,
      List.filter_nil]
  | [a, b] => by
    simp only [encodeBytes, List.filter_cons, encodeSextet_keep, padChar_keep, if_true,
      List.filter_nil]
  | a :: b :: c :: rest => by
    have ih := filter_encodeBytes rest
    simp only [encodeBytes, List.filter_cons, encodeSextet_keep, if_true, ih]

/-- Decoding the quanta of an encoding gives the bytes back. -/
theorem decodeChars_encodeBytes : ∀ src : List Byte, decodeChars (encodeBytes src) = some src
  | [] => rfl
  | [a] => by
    have ha := a.isLt
    simp only [encodeBytes, decodeChars, decodeSextet_encodeSextet, if_true, ne_eq,
      not_true_eq_false, if_false]
    congr 2
    apply Fin.ext
    simp only [toByte]
    omega
  | [a, b] => by
    have ha := a.isLt
    have hb := b.isLt
    simp only [encodeBytes, decodeChars, decodeSextet_encodeSextet, if_true, ne_eq,
      not_true_eq_false, if_false, encodeSextet_ne_pad]
    congr 2
    · apply Fin.ext
      simp only [toByte]
      omega
    · congr 1
      apply Fin.ext
      simp only [toByte]
      omega
  | a :: b :: c :: rest => by
    have ha := a.isLt
    have hb := b.isLt
    have hc := c.isLt
    have ih := decodeChars_encodeBytes rest
    simp only [encodeBytes, decodeChars, decodeSextet_encodeSextet, encodeSextet_ne_pad,
      if_false, ih, Option.map_some']
    congr 2
    · apply Fin.ext
      simp only [toByte]
      omega
    · congr 1
      · apply Fin.ext
        simp only [toByte]
        omega
      · congr 1
        apply Fin.ext
        simp only [toByte]
        omega

theorem decodeString_encodeToString (src : List Byte) :
    decodeString (encodeToString src) = some src := by
  show decodeChars
    ((encodeBytes src).filter (fun c => c ≠ Char.ofNat 13 ∧ c ≠ Char.ofNat 10)) = some src
  rw [filter_encodeBytes, decodeChars_encodeBytes]

/-! ## Decimal numerals: parsing inverts formatting -/

theorem digitValue_decimalDigit_fin :
    ∀ d : Fin 10, digitValue (decimalDigit d.val) = some d.val ∧
      decimalDigit d.val ≠ Char.ofNat 43 ∧ decimalDigit d.val ≠ Char.ofNat 45 := by
  decide

theorem digitValue_decimalDigit (d : ℕ) (hd : d < 10) :
    digitValue (decimalDigit d) = some d :=
  (digitValue_decimalDigit_fin ⟨d, hd⟩).1

theorem le_foldl_digits (ds : List ℕ) : ∀ acc : ℕ,
    acc ≤ ds.foldl (fun a d => a * 10 + d) acc := by
  induction ds with
  | nil => intro acc; exact le_refl _
  | cons d ds ih =>
    intro acc
    simp only [List.foldl_cons]
    have := ih (acc * 10 + d)
    omega

/-- The digit loop on the characters of a digit list computes its value, when the value is in
the uint64 range. -/
theorem parseUint_digits (ds : List ℕ) : ∀ acc : ℕ, (∀ d ∈ ds, d < 10) →
    ds.foldl (fun a d => a * 10 + d) acc ≤ 2 ^ 64 - 1 →
    parseUint (ds.map decimalDigit) acc = (ds.foldl (fun a d => a * 10 + d) acc, none) := by
  induction ds with
  | nil => intro acc _ _; rfl
  | cons d ds ih =>
    intro acc hds hval
    have hd : d < 10 := hds d (List.mem_cons_self d ds)
    simp only [List.foldl_cons] at hval
    have hle := le_foldl_digits ds (acc * 10 + d)
    have hno : ¬ (acc * 10 + d > 2 ^ 64 - 1) := by omega
    simp only [List.map_cons, parseUint, digitValue_decimalDigit d hd, if_neg hno,
      List.foldl_cons]
    exact ih (acc * 10 + d) (fun x hx => hds x (List.mem_cons_of_mem d hx)) hval

theorem foldl_reverse_digits (n : ℕ) :
    (Nat.digits 10 n).reverse.foldl (fun a d => a * 10 + d) 0 = n := by
  rw [List.foldl_reverse]
  have h := Nat.ofDigits_digits 10 n
  rw [Nat.ofDigits_eq_foldr] at h
  have e : (fun (x y : ℕ) => y * 10 + x) = (fun (x y : ℕ) => (x : ℕ) + 10 * y) := by
    funext x y
    omega
  rw [e]
  simpa using h

/-- Parsing the decimal numeral of a natural number below 2^63 gives the number, without
error. -/
theorem parseInt_formatNat (m : ℕ) (hm : m < 2 ^ 63) :
    parseInt (formatNat m) = ((m : ℤ), none) := by
  unfold formatNat
  split_ifs with h0
  · subst h0
    decide
  · have hne : (Nat.digits 10 m).reverse ≠ [] := by
      intro h
      rw [List.reverse_eq_nil_iff] at h
      exact h0 (Nat.digits_eq_nil_iff_eq_zero.mp h)
    obtain ⟨d0, ds, hds⟩ := List.exists_cons_of_ne_nil hne
    have hall : ∀ d ∈ d0 :: ds, d < 10 := by
      rw [← hds]
      intro d hd
      exact Nat.digits_lt_base (by norm_num) (List.mem_reverse.mp hd)
    have hval : (d0 :: ds).foldl (fun a d => a * 10 + d) 0 = m := by
      rw [← hds]
      exact foldl_reverse_digits m
    have hp := parseUint_digits (d0 :: ds) 0 hall (by rw [hval]; omega)
    rw [hval] at hp
    have hd0 := digitValue_decimalDigit_fin ⟨d0, hall d0 (List.mem_cons_self d0 ds)⟩
    have hplus : decimalDigit d0 ≠ Char.ofNat 43 := hd0.2.1
    have hminus : decimalDigit d0 ≠ Char.ofNat 45 := hd0.2.2
    rw [hds]
    simp only [List.map_cons] at hp ⊢
    have hge : ¬ (m ≥ 2 ^ 63) := by omega
    simp only [parseInt, hplus, hminus, or_self, if_false, hp, decide_False,
      Bool.false_eq_true, false_and, hge, and_false, reduceCtorEq]

/-- Parsing what the verb %d prints for a length gives the length back. -/
theorem atoi_formatInt (n : ℕ) (hn : n < 2 ^ 63) :
    atoi (formatInt (n : ℤ)) = ((n : ℤ), none) := by
  have hneg : ¬ ((n : ℤ) < 0) := by omega
  unfold atoi formatInt
  rw [if_neg hneg, Int.natAbs_ofNat]
  exact parseInt_formatNat n hn

/-! ## The response of a successful request -/

/-- The read loop without a failing read returns the content of the file after what was
already read. -/
theorem readLoop_none (n : ℕ) : ∀ (rest buf : List Byte) (i : ℕ), rest.length ≤ n →
    readLoop none i rest buf = some (buf ++ rest) := by
  induction n with
  | zero =>
    intro rest buf i h
    have : rest = [] := List.length_eq_zero.mp (Nat.le_zero.mp h)
    subst this
    unfold readLoop
    simp
  | succ n ih =>
    intro rest buf i h
    unfold readLoop
    cases rest with
    | nil => simp
    | cons b bs =>
      have hlen : ((b :: bs).drop 512).length ≤ n := by
        simp only [List.length_drop, List.length_cons] at h ⊢
        omega
      simp only [reduceCtorEq, if_false]
      rw [ih _ _ _ hlen, List.append_assoc, List.take_append_drop]

theorem resizeDims_10_10_100_100 : resizeDims 10 10 100 100 = (10, 10) := by
  rw [resizeDims_eq]
  simp

theorem percent_path :
    clean ("uploads/" ++ (formatInt 0 ++ "_" ++ "a%")) = "uploads/0_a%" := by
  decide

theorem percent_formatInt : formatInt ((sampleBuf.length : ℕ) : ℤ) = "3" := by
  simp [formatInt, formatNat, decimalDigit, sampleBuf]

theorem percent_document : marshal (responseData "uploads/0_a%" sampleBuf) = percentDocument := by
  unfold responseData
  rw [percent_formatInt]
  decide

theorem percent_body : responseBody "uploads/0_a%" sampleBuf = percentBody := by
  unfold responseBody
  rw [percent_document]
  decide

/-- A format without a percent sign is written as it is. -/
theorem doPrintf_of_no_percent : ∀ cs : List Char, Char.ofNat 37 ∉ cs → doPrintf 0 cs = cs
  | [], _ => rfl
  | c :: cs, h => by
    have hc : ¬ (c = Char.ofNat 37) := fun e => h (e ▸ List.mem_cons_self c cs)
    have hcs : Char.ofNat 37 ∉ cs := fun m => h (List.mem_cons_of_mem c m)
    simp only [doPrintf, if_neg hc, doPrintf_of_no_percent cs hcs]

/-- The string map of a response round-trips: its base64 entry decodes to the bytes, and its
file_size entry parses to their number. -/
theorem responseData_round_trip (filePath : String) (buf : List Byte)
    (hlen : buf.length < 2 ^ 63) :
    (responseData filePath buf).lookup "base64" = some (encodeToString buf) ∧
      decodeString (encodeToString buf) = some buf ∧
      (responseData filePath buf).lookup "file_size" = some (formatInt buf.length) ∧
      atoi (formatInt buf.length) = ((buf.length : ℤ), none) := by
  refine ⟨by simp [responseData, List.lookup], decodeString_encodeToString buf,
    by simp [responseData, List.lookup], atoi_formatInt buf.length hlen⟩

/-! ### Where the body is the JSON document -/

theorem hexDigit_ne_percent (n : ℕ) : hexDigit n ≠ Char.ofNat 37 := by
  by_cases h : n < 16
  · have : ∀ i : Fin 16, hexDigit i.val ≠ Char.ofNat 37 := by decide
    exact this ⟨n, h⟩
  · unfold hexDigit
    rw [List.getD_eq_default _ _ (by simpa using h)]
    decide

/-- The JSON escaping of a character other than the percent sign holds no percent sign. -/
theorem jsonEscapeChar_no_percent (c : Char) (hc : c ≠ Char.ofNat 37) :
    Char.ofNat 37 ∉ jsonEscapeChar c := by
  have hx := hexDigit_ne_percent (c.toNat / 16)
  have hy := hexDigit_ne_percent (c.toNat % 16)
  unfold jsonEscapeChar
  simp only
  split_ifs <;>
    simp only [List.mem_cons, List.mem_singleton, List.not_mem_nil, or_false, not_or] <;>
    first
    | exact ⟨by decide, hc.symm⟩
    | exact ⟨by decide, by decide⟩
    | exact ⟨by decide, by decide, by decide, by decide, hx.symm, hy.symm⟩
    | exact hc.symm

theorem jsonString_no_percent (s : String) (hs : Char.ofNat 37 ∉ s.toList) :
    Char.ofNat 37 ∉ jsonString s := by
  unfold jsonString
  intro h
  rcases List.mem_cons.mp h with h | h
  · exact absurd h (by decide)
  · rcases List.mem_append.mp h with h | h
    · obtain ⟨c, hc, hm⟩ := List.mem_flatMap.mp h
      exact jsonEscapeChar_no_percent c (fun e => hs (e ▸ hc)) hm
    · exact absurd (List.mem_singleton.mp h) (by decide)

theorem escapeChar_no_percent (c : Char) (hc : c ≠ Char.ofNat 37) :
    Char.ofNat 37 ∉ escapeChar c := by
  unfold escapeChar
  split_ifs
  · decide
  · decide
  · decide
  · decide
  · decide
  · simpa using hc.symm

theorem escapeString_no_percent (s : String) (hs : Char.ofNat 37 ∉ s.toList) :
    Char.ofNat 37 ∉ (escapeString s).toList := by
  show Char.ofNat 37 ∉ s.toList.flatMap escapeChar
  intro h
  obtain ⟨c, hc, hm⟩ := List.mem_flatMap.mp h
  exact escapeChar_no_percent c (fun e => hs (e ▸ hc)) hm

theorem encodeSextet_ne_percent (v : ℕ) : encodeSextet v ≠ Char.ofNat 37 := by
  have : ∀ i : Fin 64, encodeStd.getD i.val padChar ≠ Char.ofNat 37 := by decide
  exact this ⟨v % 64, Nat.mod_lt v (by decide)⟩

theorem encodeBytes_no_percent : ∀ src : List Byte, Char.ofNat 37 ∉ encodeBytes src
  | [] => by simp [encodeBytes]
  | [a] => by
    have hp : Char.ofNat 37 ≠ padChar := by decide
    simp only [encodeBytes, List.mem_cons, List.not_mem_nil, or_false, not_or]
    exact ⟨(encodeSextet_ne_percent _).symm, (encodeSextet_ne_percent _).symm, hp, hp⟩
  | [a, b] => by
    have hp : Char.ofNat 37 ≠ padChar := by decide
    simp only [encodeBytes, List.mem_cons, List.not_mem_nil, or_false, not_or]
    exact ⟨(encodeSextet_ne_percent _).symm, (encodeSextet_ne_percent _).symm,
      (encodeSextet_ne_percent _).symm, hp⟩
  | a :: b :: c :: rest => by
    have ih := encodeBytes_no_percent rest
    simp only [encodeBytes, List.mem_cons, not_or]
    exact ⟨(encodeSextet_ne_percent _).symm, (encodeSextet_ne_percent _).symm,
      (encodeSextet_ne_percent _).symm, (encodeSextet_ne_percent _).symm, ih⟩

theorem formatNat_no_percent (n : ℕ) : Char.ofNat 37 ∉ formatNat n := by
  unfold formatNat
  split_ifs with h0
  · decide
  · intro h
    obtain ⟨d, hd, hm⟩ := List.mem_map.mp h
    have hlt : d < 10 := Nat.digits_lt_base (by norm_num) (List.mem_reverse.mp hd)
    have : ∀ i : Fin 10, decimalDigit i.val ≠ Char.ofNat 37 := by decide
    exact this ⟨d, hlt⟩ hm

/-- The JSON text of the string map holds no percent sign when the staged path holds none. -/
theorem marshal_responseData_no_percent (filePath : String) (buf : List Byte)
    (hp : Char.ofNat 37 ∉ filePath.toList) :
    Char.ofNat 37 ∉ (marshal (responseData filePath buf)).toList := by
  have h1 := jsonString_no_percent (encodeToString buf) (encodeBytes_no_percent buf)
  have h2 := jsonString_no_percent (escapeString filePath) (escapeString_no_percent filePath hp)
  have h3 : Char.ofNat 37 ∉ jsonString (formatInt ((buf.length : ℕ) : ℤ)) := by
    apply jsonString_no_percent
    have hneg : ¬ (((buf.length : ℕ) : ℤ) < 0) := by omega
    have e : (formatInt ((buf.length : ℕ) : ℤ)).toList
        = formatNat (((buf.length : ℕ) : ℤ)).natAbs := by
      unfold formatInt
      rw [if_neg hneg]
      rfl
    rw [e]
    exact formatNat_no_percent _
  have k1 : Char.ofNat 37 ∉ jsonString "base64" := by decide
  have k2 : Char.ofNat 37 ∉ jsonString "file_path" := by decide
  have k3 : Char.ofNat 37 ∉ jsonString "file_size" := by decide
  show Char.ofNat 37 ∉ (Char.ofNat 123 ::
    List.intercalate [Char.ofNat 44]
      ((responseData filePath buf).map
        (fun kv => jsonString kv.1 ++ Char.ofNat 58 :: jsonString kv.2))
    ++ [Char.ofNat 125])
  simp only [responseData, List.map_cons, List.map_nil, List.intercalate, List.intersperse,
    List.flatten, List.mem_cons, List.mem_append, List.not_mem_nil, or_false,
    not_or, List.append_nil]
  exact ⟨⟨by decide, ⟨k1, by decide, h1⟩, by decide, ⟨k2, by decide, h2⟩, by decide, k3,
    by decide, h3⟩, by decide⟩

/-- When the staged path holds no percent sign, the body of a successful response is the JSON
document of the string map. -/
theorem responseBody_of_no_percent (filePath : String) (buf : List Byte)
    (hp : Char.ofNat 37 ∉ filePath.toList) :
    responseBody filePath buf = marshal (responseData filePath buf) := by
  unfold responseBody fprintf
  rw [doPrintf_of_no_percent _ (marshal_responseData_no_percent filePath buf hp)]
  rfl

/-- The handler on `percentRequest` in `workingEnv` answers 200 with the body of the staged
path `uploads/0_a%` and the three bytes read from the optimized file. -/
theorem percent_eval :
    (uploadHandler workingEnv sampleServer percentRequest).2
      = some ⟨200, ("Content-Type", "application/json") :: corsHeaders,
          responseBody "uploads/0_a%" sampleBuf⟩ := by
  have hq : atoi "80" = (80, none) := by decide
  have hm : atoi "100" = (100, none) := by decide
  have hread : readLoop none 0 sampleBuf [] = some sampleBuf := by
    rw [readLoop_none 3 sampleBuf [] 0 (by decide)]
    rfl
  unfold uploadHandler
  simp only [percentRequest, workingEnv, sampleServer]
  simp +decide [hq, hm, percent_path, resizeImage, processFile, writeFile, List.lookup,
    resizeDims_10_10_100_100, newRGBAPanics, hread]

/-- C9, on the code: the response of an upload named `a%` is not the JSON document of the string
map. The handler gives the JSON text to fmt.Fprintf as its format (line 187), so the percent
sign and the closing quote of file_path are read as a verb without operand. The request is
answered 200 with the body
`{"base64":"TWFu","file_path":"uploads/0_a%!"(MISSING),"file_size":"3"}`, where the document
of the string map is `{"base64":"TWFu","file_path":"uploads/0_a%","file_size":"3"}`: in the
body the string of file_path ends at the quote after `%!` and the text `(MISSING)` follows
it. -/
theorem uploadHandler_percent_in_file_name :
    (uploadHandler workingEnv sampleServer percentRequest).2
      = some ⟨200, ("Content-Type", "application/json") :: corsHeaders, percentBody⟩ ∧
    marshal (responseData "uploads/0_a%" sampleBuf) = percentDocument ∧
    percentBody ≠ percentDocument := by
  refine ⟨?_, percent_document, by decide⟩
  rw [percent_eval, percent_body]

end Optimizer
